import Mathlib

/-!
# Verification of the crypto price tracker (hello-ratatui)

Shallow embedding of `src/main.rs`: a terminal dashboard that periodically
fetches prices for a fixed list of trading pairs and renders them, driven by
a single-threaded event loop (render, conditional 1-second fetch, bounded
input poll, quit-key dispatch).

Prices are `f64` in the source; the program performs no arithmetic on them
(they are stored on fetch and read on render), so they are modelled as `ℚ`.
Time (`Instant`) is modelled as a `Nat` count of milliseconds from a
simulated monotone clock. The external market-data collaborator
(`market.get_price`) is modelled as a function `String → Option ℚ` giving
each symbol's lookup outcome for one fetch cycle.
-/

namespace HelloRatatui

/-- Model of `ratatui::style::Color` — only the variants the source uses. -/
inductive Color where
  | White
  | Green
  | Blue
  | Yellow
  | Cyan
  | Magenta
  | LightYellow
  | LightBlue
  | LightCyan
deriving DecidableEq, Repr

/-- Model of `struct CoinConfig` — configuration for each coin (main.rs:16-22). -/
structure CoinConfig where
  symbol : String
  display_name : String
  color : Color
  precision : Nat
deriving DecidableEq, Repr

/-- Model of `impl Default for CoinConfig` (main.rs:24-33). -/
def CoinConfig.defaultConfig : CoinConfig :=
  { symbol := "", display_name := "", color := Color.White, precision := 2 }

instance : Inhabited CoinConfig := ⟨CoinConfig.defaultConfig⟩

/-- Model of `crossterm::event::KeyCode` — `Esc` and `Char` are matched by the source;
the remaining variants all fall into its wildcard arm and are collapsed
into representative constructors. -/
inductive KeyCode where
  | Esc
  | Enter
  | Backspace
  | Char (c : Char)
  | Other
deriving DecidableEq, Repr

/-- Model of `crossterm::event::KeyModifiers` as a bitset of the three common flags. -/
structure KeyModifiers where
  shift : Bool
  control : Bool
  alt : Bool
deriving DecidableEq, Repr

/-- The value `KeyModifiers::NONE`. -/
def KeyModifiers.NONE : KeyModifiers := ⟨false, false, false⟩

/-- The value `KeyModifiers::CONTROL`: exactly the control bit set. -/
def KeyModifiers.CONTROL : KeyModifiers := ⟨false, true, false⟩

/-- Model of `crossterm::event::KeyEventKind`. -/
inductive KeyEventKind where
  | Press
  | Repeat
  | Release
deriving DecidableEq, Repr

/-- Model of `crossterm::event::KeyEvent` — the fields the source reads. -/
structure KeyEvent where
  code : KeyCode
  modifiers : KeyModifiers
  kind : KeyEventKind
deriving DecidableEq, Repr

/-- Model of `crossterm::event::Event`; `Other` stands for the variants the source's
wildcard arm ignores (focus, paste, ...). -/
inductive Event where
  | Key (key : KeyEvent)
  | Mouse
  | Resize (w h : Nat)
  | Other
deriving DecidableEq, Repr

/-- A styled span of text (`ratatui::text::Span`). -/
structure Span where
  text : String
  style_color : Option Color
  bold : Bool
deriving DecidableEq, Repr

/-- Model of `Span::raw`. -/
def Span.raw (s : String) : Span := { text := s, style_color := none, bold := false }

/-- Model of `Span::styled` with a plain foreground color. -/
def Span.styled (s : String) (c : Color) : Span :=
  { text := s, style_color := some c, bold := false }

/-- A line of spans (`ratatui::text::Line`). -/
structure RLine where
  spans : List Span
  centered : Bool
deriving DecidableEq, Repr

/-- A rendered widget: a bordered paragraph placed in a layout chunk of the
given height. -/
structure Widget where
  lines : List RLine
  block_title : Option String
  borders : Bool
  height : Nat
deriving DecidableEq, Repr

/-- The draw surface: the sequence of widgets rendered onto it this frame. -/
structure Frame where
  widgets : List Widget
deriving DecidableEq, Repr

/-- A fresh frame, as `terminal.draw` supplies to the render closure. -/
def Frame.empty : Frame := ⟨[]⟩

/-- Model of `frame.render_widget(widget, area)`: draw one widget onto the frame. -/
def Frame.render_widget (f : Frame) (w : Widget) : Frame := ⟨f.widgets ++ [w]⟩

/-- Round a rational to the nearest integer (`⌊q + 1/2⌋`), standing in for
the decimal rounding Rust's `{:.prec$}` float formatting performs. -/
def ratRound (q : ℚ) : ℤ := (q + 1 / 2).floor

/-- Zero-pad a numeral string on the left to width `w`. -/
def padZeros (s : String) (w : Nat) : String :=
  String.mk (List.replicate (w - s.length) '0') ++ s

/-- Model of the format string `"{:.prec$}"`: fixed-point rendering of a price with `prec`
digits after the decimal point. -/
def formatFixed (q : ℚ) (prec : Nat) : String :=
  let n : ℤ := ratRound (q * (10 : ℚ) ^ prec)
  let sign := if n < 0 then "-" else ""
  let m := n.natAbs
  if prec = 0 then sign ++ toString m
  else sign ++ toString (m / 10 ^ prec) ++ "." ++ padZeros (toString (m % 10 ^ prec)) prec

/-- Model of `struct App` (main.rs:44-51): the application state. `last_update` is the
`Instant` of the last fetch, in milliseconds of the simulated clock. -/
structure App where
  running : Bool
  prices : List ℚ
  coin_configs : List CoinConfig
  last_update : Nat
deriving DecidableEq, Repr

/-- The literal coin configuration vector built in `App::new`
(main.rs:57-118). Note `TONUSDT` appears twice (main.rs:82-87 and
main.rs:106-111). -/
def defaultCoinConfigs : List CoinConfig :=
  [ { symbol := "BTCUSDT", display_name := "BTC/USDT", color := Color.Green, precision := 2 },
    { symbol := "ETHUSDT", display_name := "ETH/USDT", color := Color.Blue, precision := 2 },
    { symbol := "BNBUSDT", display_name := "BNB/USDT", color := Color.Yellow, precision := 2 },
    { symbol := "UNIUSDT", display_name := "UNI/USDT", color := Color.Cyan, precision := 2 },
    { symbol := "TONUSDT", display_name := "TON/USDT", color := Color.Cyan, precision := 2 },
    { symbol := "SOLUSDT", display_name := "SOL/USDT", color := Color.Cyan, precision := 2 },
    { symbol := "XRPUSDT", display_name := "XRP/USDT", color := Color.Magenta, precision := 4 },
    { symbol := "DOGEUSDT", display_name := "DOGE/USDT", color := Color.LightYellow, precision := 6 },
    { symbol := "TONUSDT", display_name := "TON/USDT", color := Color.LightBlue, precision := 4 },
    { symbol := "ADAUSDT", display_name := "ADA/USDT", color := Color.LightCyan, precision := 4 } ]

/-- Model of `App::new` (main.rs:55-126): `running = false`, one `0.0` price per
config entry, `last_update = Instant::now()` (the simulated time `now`). -/
def App.new (now : Nat) : App :=
  { running := false
    prices := List.replicate defaultCoinConfigs.length 0
    coin_configs := defaultCoinConfigs
    last_update := now }

/-- Model of `App::quit` (main.rs:220-222): set `running` to `false`. -/
def App.quit (app : App) : App := { app with running := false }

/-- Model of `App::on_key_event` (main.rs:210-217). The Rust match is
`(_, Esc | Char('q')) | (CONTROL, Char('c') | Char('C')) => quit, _ => {}`:
the modifiers are a wildcard for `Esc` and `Char('q')`, and must equal
exactly `CONTROL` for `c`/`C`. -/
def App.on_key_event (app : App) (key : KeyEvent) : App :=
  if (key.code = KeyCode.Esc ∨ key.code = KeyCode.Char 'q')
      ∨ (key.modifiers = KeyModifiers.CONTROL
          ∧ (key.code = KeyCode.Char 'c' ∨ key.code = KeyCode.Char 'C'))
  then app.quit
  else app

/-- Model of `App::handle_crossterm_events` (main.rs:198-207), applied to the event
read from the input source: only key events whose kind is `Press` are
dispatched; mouse, resize, non-press key and other events are ignored. -/
def App.handle_crossterm_events (app : App) (ev : Event) : App :=
  match ev with
  | Event.Key key => if key.kind = KeyEventKind.Press then app.on_key_event key else app
  | Event.Mouse => app
  | Event.Resize _ _ => app
  | Event.Other => app

/-- The body of the `for (i, config) in self.coin_configs.iter().enumerate()`
loop of `App::update_prices` (main.rs:228-232): successive indexed
assignments `prices[i] = price`, one per successful lookup. -/
def updateLoop (fetch : String → Option ℚ) :
    List (Nat × CoinConfig) → List ℚ → List ℚ
  | [], prices => prices
  | (i, c) :: rest, prices =>
    match fetch c.symbol with
    | some p => updateLoop fetch rest (prices.set i p)
    | none => updateLoop fetch rest prices

/-- Model of `App::update_prices` (main.rs:224-235): for each configured coin, one
synchronous lookup; on success overwrite `prices[i]`, on failure leave it.
`fetch` is this cycle's `market.get_price`. -/
def App.update_prices (app : App) (fetch : String → Option ℚ) : App :=
  { app with prices := updateLoop fetch app.coin_configs.enum app.prices }

/-- The store-layer write, as performed inside `App::update_prices`
(main.rs:230): `self.prices[i] = price.price`. -/
def App.update (app : App) (i : Nat) (p : ℚ) : App :=
  { app with prices := app.prices.set i p }

/-- The store-layer read, as performed by the render step (main.rs:180):
`self.prices[i]`. Out-of-range reads panic in Rust; here they yield the
default `0`, and the in-bounds invariant shows that branch is never taken. -/
def App.get (app : App) (i : Nat) : ℚ := app.prices.getD i 0

/-- Model of `App::render` (main.rs:154-192): split the frame into a 3-row title
chunk and a price chunk of `len * 2 + 2` rows (a `u16` in the source),
draw the bold blue centered title in a bordered block, then one line per
configured coin, `"<display_name>:  "` followed by
`"$" ++` the price formatted to that coin's precision in that coin's color.
Takes `&mut self` in Rust; the returned first component is the state after
the call. -/
def App.render (app : App) (frame : Frame) : App × Frame :=
  let chunks : List Nat := [3, (app.coin_configs.length * 2 + 2) % 65536]
  let title : RLine :=
    { spans := [{ text := "Crypto Price Tracker", style_color := some Color.Blue, bold := true }]
      centered := true }
  let frame := frame.render_widget
    { lines := [title], block_title := none, borders := true, height := chunks.getD 0 0 }
  let prices_text : List RLine := app.coin_configs.enum.map (fun p =>
    { spans := [ Span.raw (p.2.display_name ++ ":  "),
                 Span.styled ("$" ++ formatFixed (app.prices.getD p.1 0) p.2.precision) p.2.color ]
      centered := false })
  let frame := frame.render_widget
    { lines := prices_text, block_title := some "Live Prices", borders := true
      height := chunks.getD 1 0 }
  (app, frame)

/-- The input poll timeout of the event loop (main.rs:141), in milliseconds. -/
def pollTimeoutMs : Nat := 250

/-- The fetch interval of the event loop (main.rs:135), in milliseconds. -/
def fetchIntervalMs : Nat := 1000

/-- The environment's contribution to one iteration of `App::run`'s loop:
the simulated clock reading `now` (ms) at the elapsed-time check, this
cycle's market lookup outcomes, and the result of the 250 ms input poll
(`some ev` iff an event arrived within the window). -/
structure LoopInput where
  now : Nat
  fetch : String → Option ℚ
  event : Option Event

/-- One iteration of the `while self.running` loop body of `App::run`
(main.rs:131-144): draw the frame, then if at least one second has elapsed
since `last_update` run the fetch step and set `last_update` to now, then
dispatch the polled input event if one arrived. -/
def App.step (app : App) (inp : LoopInput) : App :=
  let app := (app.render Frame.empty).1
  let app :=
    if fetchIntervalMs ≤ inp.now - app.last_update then
      { app.update_prices inp.fetch with last_update := inp.now }
    else app
  match inp.event with
  | some ev => app.handle_crossterm_events ev
  | none => app

/-- The `while self.running` loop of `App::run` (main.rs:131-144) driven by
a finite trace of environment inputs: iterate while `running` holds. -/
def App.runFrom : App → List LoopInput → App
  | app, [] => app
  | app, inp :: rest => if app.running then App.runFrom (app.step inp) rest else app

/-- Model of `App::run` (main.rs:129-146): set `running = true`, then loop. -/
def App.run (app : App) (inputs : List LoopInput) : App :=
  App.runFrom { app with running := true } inputs

/-- The clock readings of the iterations at which the loop's fetch step
fires, mirroring `App.runFrom` / `App.step`. -/
def App.fetchTimes : App → List LoopInput → List Nat
  | _, [] => []
  | app, inp :: rest =>
    if app.running then
      if fetchIntervalMs ≤ inp.now - app.last_update then
        inp.now :: App.fetchTimes (app.step inp) rest
      else App.fetchTimes (app.step inp) rest
    else []

/-- One observable activity of a loop iteration, in the order performed. -/
inductive Action where
  | rendered (frame : Frame)
  | fetched (symbols : List String)
  | polled (timeout_ms : Nat) (got : Option Event)
  | dispatched (ev : Event)

/-- The step function instrumented with the trace of activities the iteration
performs, in their source order (main.rs:131-144). -/
def App.stepTrace (app : App) (inp : LoopInput) : App × List Action :=
  let r := app.render Frame.empty
  let a1 := r.1
  let doFetch := fetchIntervalMs ≤ inp.now - a1.last_update
  let a2 :=
    if doFetch then { a1.update_prices inp.fetch with last_update := inp.now } else a1
  let a3 :=
    match inp.event with
    | some ev => a2.handle_crossterm_events ev
    | none => a2
  (a3,
    [Action.rendered r.2]
      ++ (if doFetch then [Action.fetched (a1.coin_configs.map (fun c => c.symbol))] else [])
      ++ [Action.polled pollTimeoutMs inp.event]
      ++ (match inp.event with | some ev => [Action.dispatched ev] | none => []))

/-- The alignment invariant: one price entry per configured coin entry. -/
def App.pricesAligned (app : App) : Prop :=
  app.prices.length = app.coin_configs.length

/-- The set of configured symbols (with multiplicity), read off the config
vector. -/
def App.configuredSymbols (app : App) : List String :=
  app.coin_configs.map (fun c => c.symbol)

/-- How many entries of the price store are associated with symbol `s`:
entry `i` of `prices` is the entry for `coin_configs[i].symbol`. -/
def App.entriesFor (app : App) (s : String) : Nat :=
  ((app.coin_configs.take app.prices.length).map (fun c => c.symbol)).count s

/-- Modelled from the spec: the quit-key set claimed by the input-dispatch
section — `Esc`, *plain* `q` (no modifiers), or Control+`c`/Control+`C`. -/
def specQuitKey (key : KeyEvent) : Prop :=
  key.code = KeyCode.Esc
    ∨ (key.code = KeyCode.Char 'q' ∧ key.modifiers = KeyModifiers.NONE)
    ∨ (key.modifiers = KeyModifiers.CONTROL
        ∧ (key.code = KeyCode.Char 'c' ∨ key.code = KeyCode.Char 'C'))

instance (key : KeyEvent) : Decidable (specQuitKey key) := by
  unfold specQuitKey; infer_instance

/-- A key event with modifiers exactly `CONTROL` and code `Char 'q'`, as
crossterm delivers for Ctrl+q: it is not in the spec's quit-key list. -/
def ctrlQPress : KeyEvent :=
  { code := KeyCode.Char 'q', modifiers := KeyModifiers.CONTROL, kind := KeyEventKind.Press }

/-- A plain Esc key press. -/
def escPress : KeyEvent :=
  { code := KeyCode.Esc, modifiers := KeyModifiers.NONE, kind := KeyEventKind.Press }

/-- A release event for the `q` key. -/
def qRelease : KeyEvent :=
  { code := KeyCode.Char 'q', modifiers := KeyModifiers.NONE, kind := KeyEventKind.Release }

/-- The freshly constructed application with the loop started, i.e. the
state at the top of `App::run`'s loop. -/
def runningApp : App := { App.new 0 with running := true }

/-- A loop iteration in which every lookup fails and no input arrives. -/
def noFetchInput : LoopInput := { now := 5000, fetch := fun _ => none, event := none }

/-- A fetch cycle in which the lookup for ETHUSDT succeeds with 42.5 and
every other lookup (BTCUSDT included) fails. -/
def exFetch : String → Option ℚ := fun s => if s = "ETHUSDT" then some (85 / 2) else none

/-! ## Helper lemmas -/

lemma getD_set_ne (l : List ℚ) (j i : Nat) (a : ℚ) (h : j ≠ i) :
    (l.set j a).getD i 0 = l.getD i 0 := by
  simp [List.getD_eq_getElem?_getD, List.getElem?_set_ne h]

lemma getD_set_self (l : List ℚ) (i : Nat) (a : ℚ) (h : i < l.length) :
    (l.set i a).getD i 0 = a := by
  rw [List.getD_eq_getElem?_getD, List.getElem?_set_eq_of_lt a h]
  rfl

lemma updateLoop_length (fetch : String → Option ℚ) :
    ∀ (ps : List (Nat × CoinConfig)) (prices : List ℚ),
      (updateLoop fetch ps prices).length = prices.length := by
  intro ps
  induction ps with
  | nil => intro prices; rfl
  | cons q rest ih =>
    intro prices
    obtain ⟨j, c⟩ := q
    unfold updateLoop
    cases fetch c.symbol with
    | some p => rw [ih]; exact List.length_set ..
    | none => exact ih prices

lemma mem_enumFrom_spec :
    ∀ (l : List CoinConfig) (n : Nat) (q : Nat × CoinConfig),
      q ∈ List.enumFrom n l →
      n ≤ q.1 ∧ q.1 - n < l.length ∧ l.getD (q.1 - n) CoinConfig.defaultConfig = q.2 := by
  intro l
  induction l with
  | nil => intro n q h; simp [List.enumFrom] at h
  | cons c rest ih =>
    intro n q h
    rcases List.mem_cons.mp h with h | h
    · subst h; simp
    · obtain ⟨h1, h2, h3⟩ := ih (n + 1) q h
      refine ⟨by omega, by simp only [List.length_cons]; omega, ?_⟩
      have hq : q.1 - n = (q.1 - (n + 1)) + 1 := by omega
      rw [hq, List.getD_cons_succ]
      exact h3

lemma updateLoop_getD_untouched (fetch : String → Option ℚ) :
    ∀ (ps : List (Nat × CoinConfig)) (prices : List ℚ) (i : Nat),
      (∀ q ∈ ps, q.1 = i → fetch q.2.symbol = none) →
      (updateLoop fetch ps prices).getD i 0 = prices.getD i 0 := by
  intro ps
  induction ps with
  | nil => intro prices i _; rfl
  | cons q rest ih =>
    intro prices i hnone
    obtain ⟨j, c⟩ := q
    unfold updateLoop
    cases hf : fetch c.symbol with
    | some p =>
      have hj : j ≠ i := by
        intro hji
        rw [hnone (j, c) (List.mem_cons_self _ _) hji] at hf
        exact Option.noConfusion hf
      rw [ih _ i (fun q hq hqi => hnone q (List.mem_cons_of_mem _ hq) hqi)]
      exact getD_set_ne _ _ _ _ hj
    | none =>
      exact ih _ i (fun q hq hqi => hnone q (List.mem_cons_of_mem _ hq) hqi)

lemma enumFrom_vacuous (fetch : String → Option ℚ) (l : List CoinConfig) (n i : Nat)
    (hi : i < n) :
    ∀ q ∈ List.enumFrom n l, q.1 = i → fetch q.2.symbol = none := by
  intro q hq hqi
  have := (mem_enumFrom_spec l n q hq).1
  omega

lemma updateLoop_enumFrom_getD (fetch : String → Option ℚ) :
    ∀ (l : List CoinConfig) (n : Nat) (prices : List ℚ) (k : Nat),
      k < l.length → n + k < prices.length →
      (updateLoop fetch (List.enumFrom n l) prices).getD (n + k) 0 =
        match fetch ((l.getD k CoinConfig.defaultConfig).symbol) with
        | some p => p
        | none => prices.getD (n + k) 0 := by
  intro l
  induction l with
  | nil => intro n prices k hk _; simp at hk
  | cons c rest ih =>
    intro n prices k hk hlen
    show (updateLoop fetch ((n, c) :: List.enumFrom (n + 1) rest) prices).getD (n + k) 0 = _
    unfold updateLoop
    cases k with
    | zero =>
      simp only [Nat.add_zero] at hlen ⊢
      cases hf : fetch c.symbol with
      | some p =>
        simp only [List.getD_cons_zero, hf]
        rw [updateLoop_getD_untouched fetch _ _ n
          (enumFrom_vacuous fetch rest (n + 1) n (by omega))]
        exact getD_set_self _ _ _ hlen
      | none =>
        simp only [List.getD_cons_zero, hf]
        exact updateLoop_getD_untouched fetch _ _ n
          (enumFrom_vacuous fetch rest (n + 1) n (by omega))
    | succ k' =>
      have hk' : k' < rest.length := by simpa using hk
      have hidx : n + (k' + 1) = (n + 1) + k' := by omega
      cases hf : fetch c.symbol with
      | some p =>
        have hlen' : (n + 1) + k' < (prices.set n p).length := by
          rw [List.length_set]; omega
        rw [hidx, ih (n + 1) (prices.set n p) k' hk' hlen']
        simp only [List.getD_cons_succ]
        cases fetch ((rest.getD k' CoinConfig.defaultConfig).symbol) with
        | some p' => rfl
        | none => exact getD_set_ne _ _ _ _ (by omega)
      | none =>
        have hlen' : (n + 1) + k' < prices.length := by omega
        rw [hidx, ih (n + 1) prices k' hk' hlen']
        simp only [List.getD_cons_succ]

lemma update_prices_getD (app : App) (fetch : String → Option ℚ) (i : Nat)
    (hi : i < app.coin_configs.length) (hlen : i < app.prices.length) :
    (app.update_prices fetch).prices.getD i 0 =
      match fetch ((app.coin_configs.getD i CoinConfig.defaultConfig).symbol) with
      | some p => p
      | none => app.prices.getD i 0 := by
  have h := updateLoop_enumFrom_getD fetch app.coin_configs 0 app.prices i hi
    (by simpa using hlen)
  simpa [App.update_prices, List.enum] using h

lemma update_prices_coin_configs (app : App) (fetch : String → Option ℚ) :
    (app.update_prices fetch).coin_configs = app.coin_configs := rfl

lemma update_prices_last_update (app : App) (fetch : String → Option ℚ) :
    (app.update_prices fetch).last_update = app.last_update := rfl

lemma update_prices_prices_length (app : App) (fetch : String → Option ℚ) :
    (app.update_prices fetch).prices.length = app.prices.length :=
  updateLoop_length fetch _ _

lemma on_key_event_prices (app : App) (key : KeyEvent) :
    (app.on_key_event key).prices = app.prices := by
  unfold App.on_key_event App.quit
  split <;> rfl

lemma on_key_event_coin_configs (app : App) (key : KeyEvent) :
    (app.on_key_event key).coin_configs = app.coin_configs := by
  unfold App.on_key_event App.quit
  split <;> rfl

lemma on_key_event_last_update (app : App) (key : KeyEvent) :
    (app.on_key_event key).last_update = app.last_update := by
  unfold App.on_key_event App.quit
  split <;> rfl

lemma handle_crossterm_events_prices (app : App) (ev : Event) :
    (app.handle_crossterm_events ev).prices = app.prices := by
  cases ev with
  | Key key =>
    show (if key.kind = KeyEventKind.Press then app.on_key_event key else app).prices
      = app.prices
    split
    · exact on_key_event_prices app key
    · rfl
  | Mouse => rfl
  | Resize w h => rfl
  | Other => rfl

lemma handle_crossterm_events_coin_configs (app : App) (ev : Event) :
    (app.handle_crossterm_events ev).coin_configs = app.coin_configs := by
  cases ev with
  | Key key =>
    show (if key.kind = KeyEventKind.Press then app.on_key_event key else app).coin_configs
      = app.coin_configs
    split
    · exact on_key_event_coin_configs app key
    · rfl
  | Mouse => rfl
  | Resize w h => rfl
  | Other => rfl

lemma handle_crossterm_events_last_update (app : App) (ev : Event) :
    (app.handle_crossterm_events ev).last_update = app.last_update := by
  cases ev with
  | Key key =>
    show (if key.kind = KeyEventKind.Press then app.on_key_event key else app).last_update
      = app.last_update
    split
    · exact on_key_event_last_update app key
    · rfl
  | Mouse => rfl
  | Resize w h => rfl
  | Other => rfl

lemma render_fst (app : App) (frame : Frame) : (app.render frame).1 = app := rfl

lemma step_eq (app : App) (inp : LoopInput) :
    app.step inp =
      (match inp.event with
       | some ev =>
         (if fetchIntervalMs ≤ inp.now - app.last_update then
            { app.update_prices inp.fetch with last_update := inp.now }
          else app).handle_crossterm_events ev
       | none =>
         if fetchIntervalMs ≤ inp.now - app.last_update then
           { app.update_prices inp.fetch with last_update := inp.now }
         else app) := rfl

lemma step_coin_configs (app : App) (inp : LoopInput) :
    (app.step inp).coin_configs = app.coin_configs := by
  obtain ⟨now, fetch, event⟩ := inp
  cases event with
  | some ev =>
    show ((if fetchIntervalMs ≤ now - app.last_update then
        { app.update_prices fetch with last_update := now }
      else app).handle_crossterm_events ev).coin_configs = app.coin_configs
    rw [handle_crossterm_events_coin_configs]
    split <;> rfl
  | none =>
    show (if fetchIntervalMs ≤ now - app.last_update then
        { app.update_prices fetch with last_update := now }
      else app).coin_configs = app.coin_configs
    split <;> rfl

lemma step_prices_length (app : App) (inp : LoopInput) :
    (app.step inp).prices.length = app.prices.length := by
  obtain ⟨now, fetch, event⟩ := inp
  cases event with
  | some ev =>
    show ((if fetchIntervalMs ≤ now - app.last_update then
        { app.update_prices fetch with last_update := now }
      else app).handle_crossterm_events ev).prices.length = app.prices.length
    rw [handle_crossterm_events_prices]
    split
    · exact update_prices_prices_length app fetch
    · rfl
  | none =>
    show (if fetchIntervalMs ≤ now - app.last_update then
        { app.update_prices fetch with last_update := now }
      else app).prices.length = app.prices.length
    split
    · exact update_prices_prices_length app fetch
    · rfl

lemma step_last_update (app : App) (inp : LoopInput) :
    (app.step inp).last_update =
      if fetchIntervalMs ≤ inp.now - app.last_update then inp.now
      else app.last_update := by
  obtain ⟨now, fetch, event⟩ := inp
  cases event with
  | some ev =>
    show ((if fetchIntervalMs ≤ now - app.last_update then
        { app.update_prices fetch with last_update := now }
      else app).handle_crossterm_events ev).last_update = _
    rw [handle_crossterm_events_last_update]
    split <;> rfl
  | none =>
    show (if fetchIntervalMs ≤ now - app.last_update then
        { app.update_prices fetch with last_update := now }
      else app).last_update = _
    split <;> rfl

lemma step_getD_of_fetch_none (app : App) (inp : LoopInput) (i : Nat)
    (hnone : inp.fetch ((app.coin_configs.getD i CoinConfig.defaultConfig).symbol) = none) :
    (app.step inp).prices.getD i 0 = app.prices.getD i 0 := by
  have hvac : ∀ q ∈ app.coin_configs.enum, q.1 = i → inp.fetch q.2.symbol = none := by
    intro q hq hqi
    obtain ⟨-, -, h3⟩ := mem_enumFrom_spec app.coin_configs 0 q hq
    rw [← h3]
    simpa [hqi] using hnone
  have hupd : (app.update_prices inp.fetch).prices.getD i 0 = app.prices.getD i 0 :=
    updateLoop_getD_untouched inp.fetch _ _ i hvac
  obtain ⟨now, fetch, event⟩ := inp
  simp only [LoopInput.fetch] at hvac hupd
  cases event with
  | some ev =>
    show ((if fetchIntervalMs ≤ now - app.last_update then
        { app.update_prices fetch with last_update := now }
      else app).handle_crossterm_events ev).prices.getD i 0 = app.prices.getD i 0
    rw [handle_crossterm_events_prices]
    split
    · exact hupd
    · rfl
  | none =>
    show (if fetchIntervalMs ≤ now - app.last_update then
        { app.update_prices fetch with last_update := now }
      else app).prices.getD i 0 = app.prices.getD i 0
    split
    · exact hupd
    · rfl

lemma runFrom_coin_configs :
    ∀ (inputs : List LoopInput) (app : App),
      (App.runFrom app inputs).coin_configs = app.coin_configs := by
  intro inputs
  induction inputs with
  | nil => intro app; rfl
  | cons inp rest ih =>
    intro app
    unfold App.runFrom
    split
    · rw [ih, step_coin_configs]
    · rfl

lemma runFrom_prices_length :
    ∀ (inputs : List LoopInput) (app : App),
      (App.runFrom app inputs).prices.length = app.prices.length := by
  intro inputs
  induction inputs with
  | nil => intro app; rfl
  | cons inp rest ih =>
    intro app
    unfold App.runFrom
    split
    · rw [ih, step_prices_length]
    · rfl

lemma runFrom_getD_of_fetch_none :
    ∀ (inputs : List LoopInput) (app : App) (i : Nat),
      (∀ inp ∈ inputs,
        inp.fetch ((app.coin_configs.getD i CoinConfig.defaultConfig).symbol) = none) →
      (App.runFrom app inputs).prices.getD i 0 = app.prices.getD i 0 := by
  intro inputs
  induction inputs with
  | nil => intro app i _; rfl
  | cons inp rest ih =>
    intro app i hnone
    unfold App.runFrom
    split
    · rw [ih (app.step inp) i ?_, step_getD_of_fetch_none app inp i
        (hnone inp (List.mem_cons_self _ _))]
      intro inp' hinp'
      rw [step_coin_configs]
      exact hnone inp' (List.mem_cons_of_mem _ hinp')
    · rfl

lemma fetchTimes_chain :
    ∀ (inputs : List LoopInput) (app : App),
      List.Chain (fun a b => a + fetchIntervalMs ≤ b) app.last_update
        (App.fetchTimes app inputs) := by
  intro inputs
  induction inputs with
  | nil => intro app; exact List.Chain.nil
  | cons inp rest ih =>
    intro app
    unfold App.fetchTimes
    split
    · split
      · rename_i hrun hfetch
        refine List.Chain.cons ?_ ?_
        · simp only [fetchIntervalMs] at hfetch ⊢
          omega
        · have h := ih (app.step inp)
          rw [step_last_update, if_pos hfetch] at h
          exact h
      · rename_i hrun hfetch
        have h := ih (app.step inp)
        rw [step_last_update, if_neg hfetch] at h
        exact h
    · exact List.Chain.nil

/-! ## Claims -/

/-- C1, counterexample: the claim limits the quit keys to Esc, *plain* `q`
and Control+c/C, but the source's modifier wildcard also quits on Ctrl+q —
a key press outside the claimed quit set that nevertheless transitions
`running` from `true` to `false`. -/
theorem quit_keys_cex :
    ¬ specQuitKey ctrlQPress
    ∧ runningApp.running = true
    ∧ (runningApp.handle_crossterm_events (Event.Key ctrlQPress)).running = false := by
  refine ⟨by decide, rfl, by decide⟩

/-- C1, amended: input dispatch transitions the loop state from Running to
Stopped exactly for Esc (any modifiers), `q` (any modifiers), and `c`/`C`
with modifiers exactly Control; every other key press leaves the state
unchanged. -/
theorem quit_keys_amended (app : App) (key : KeyEvent) (h : app.running = true) :
    ((app.on_key_event key).running = false ↔
      (key.code = KeyCode.Esc ∨ key.code = KeyCode.Char 'q'
        ∨ (key.modifiers = KeyModifiers.CONTROL
            ∧ (key.code = KeyCode.Char 'c' ∨ key.code = KeyCode.Char 'C'))))
    ∧ (¬(key.code = KeyCode.Esc ∨ key.code = KeyCode.Char 'q'
          ∨ (key.modifiers = KeyModifiers.CONTROL
              ∧ (key.code = KeyCode.Char 'c' ∨ key.code = KeyCode.Char 'C')))
        → app.on_key_event key = app) := by
  by_cases hc : (key.code = KeyCode.Esc ∨ key.code = KeyCode.Char 'q')
      ∨ (key.modifiers = KeyModifiers.CONTROL
          ∧ (key.code = KeyCode.Char 'c' ∨ key.code = KeyCode.Char 'C'))
  · constructor
    · simp only [App.on_key_event, if_pos hc, App.quit]
      constructor
      · intro _; tauto
      · intro _; trivial
    · intro hn
      exact absurd (by tauto) hn
  · constructor
    · simp only [App.on_key_event, if_neg hc, h]
      constructor
      · intro hfalse; cases hfalse
      · intro hx; exact absurd (by tauto) hc
    · intro _
      simp only [App.on_key_event, if_neg hc]

/-- C1, witness: instantiation at a running app and a plain Esc press. -/
theorem quit_keys_amended_witness :
    runningApp.running = true
    ∧ (((runningApp.on_key_event escPress).running = false ↔
        (escPress.code = KeyCode.Esc ∨ escPress.code = KeyCode.Char 'q'
          ∨ (escPress.modifiers = KeyModifiers.CONTROL
              ∧ (escPress.code = KeyCode.Char 'c' ∨ escPress.code = KeyCode.Char 'C'))))
      ∧ (¬(escPress.code = KeyCode.Esc ∨ escPress.code = KeyCode.Char 'q'
            ∨ (escPress.modifiers = KeyModifiers.CONTROL
                ∧ (escPress.code = KeyCode.Char 'c' ∨ escPress.code = KeyCode.Char 'C')))
          → runningApp.on_key_event escPress = runningApp)) :=
  ⟨rfl, quit_keys_amended runningApp escPress rfl⟩

/-- C2, counterexample: the claim asks for exactly one price-store entry per
configured symbol, but `TONUSDT` is configured twice (main.rs:82-87 and
main.rs:106-111), so already at construction the store holds two entries
for that configured symbol. -/
theorem one_entry_per_symbol_cex :
    "TONUSDT" ∈ (App.new 0).configuredSymbols
    ∧ (App.new 0).entriesFor "TONUSDT" ≠ 1 := by
  refine ⟨by decide, by decide⟩

/-- C2, amended: in every reachable application state the price store has
exactly one entry per configured coin *entry* (the prices vector and the
config vector have equal length — a symbol listed twice has one entry per
listing), with the default `0.0` standing in before any successful fetch;
this holds after construction and is preserved by every fetch, render and
input-dispatch operation, and along every run of the loop. -/
theorem prices_one_entry_per_config :
    (∀ t0 : Nat, (App.new t0).pricesAligned)
    ∧ (∀ (app : App) (fetch : String → Option ℚ),
        app.pricesAligned → (app.update_prices fetch).pricesAligned)
    ∧ (∀ (app : App) (frame : Frame),
        app.pricesAligned → ((app.render frame).1).pricesAligned)
    ∧ (∀ (app : App) (ev : Event),
        app.pricesAligned → (app.handle_crossterm_events ev).pricesAligned)
    ∧ (∀ (app : App) (inp : LoopInput), app.pricesAligned → (app.step inp).pricesAligned)
    ∧ (∀ (t0 : Nat) (inputs : List LoopInput), ((App.new t0).run inputs).pricesAligned)
    ∧ (∀ (t0 : Nat) (i : Nat), (App.new t0).prices.getD i 0 = 0) := by
  refine ⟨?_, ?_, ?_, ?_, ?_, ?_, ?_⟩
  · intro t0
    show (List.replicate defaultCoinConfigs.length (0 : ℚ)).length = _
    rw [List.length_replicate]
    rfl
  · intro app fetch h
    show (app.update_prices fetch).prices.length = (app.update_prices fetch).coin_configs.length
    rw [update_prices_prices_length, update_prices_coin_configs]
    exact h
  · intro app frame h
    exact h
  · intro app ev h
    show (app.handle_crossterm_events ev).prices.length
      = (app.handle_crossterm_events ev).coin_configs.length
    rw [handle_crossterm_events_prices, handle_crossterm_events_coin_configs]
    exact h
  · intro app inp h
    show (app.step inp).prices.length = (app.step inp).coin_configs.length
    rw [step_prices_length, step_coin_configs]
    exact h
  · intro t0 inputs
    show (App.runFrom { App.new t0 with running := true } inputs).prices.length
      = (App.runFrom { App.new t0 with running := true } inputs).coin_configs.length
    rw [runFrom_prices_length, runFrom_coin_configs]
    show (List.replicate defaultCoinConfigs.length (0 : ℚ)).length = _
    rw [List.length_replicate]
    rfl
  · intro t0 i
    show (List.replicate defaultCoinConfigs.length (0 : ℚ)).getD i 0 = 0
    rw [List.getD_eq_getElem?_getD, List.getElem?_replicate]
    split <;> rfl

/-- C2, witness: the amended invariant instantiated at constructed state and
one fetch cycle. -/
theorem prices_one_entry_per_config_witness :
    (App.new 0).pricesAligned ∧ ((App.new 0).update_prices exFetch).pricesAligned :=
  ⟨prices_one_entry_per_config.1 0,
   prices_one_entry_per_config.2.1 (App.new 0) exFetch (by rfl)⟩

/-- C3: within one fetch cycle, failed and successful lookups are isolated
per configured entry — if the lookup for the symbol at entry `iA` fails
and the lookup for the symbol at entry `iB` succeeds with `P`, then after
the cycle entry `iA` holds its previous price and entry `iB` holds `P`;
the failed lookup surfaces no error (`update_prices` is total). -/
theorem failed_lookup_isolation (app : App) (fetch : String → Option ℚ)
    (iA iB : Nat) (P : ℚ)
    (hlen : app.pricesAligned)
    (hA : iA < app.coin_configs.length) (hB : iB < app.coin_configs.length)
    (hfa : fetch ((app.coin_configs.getD iA CoinConfig.defaultConfig).symbol) = none)
    (hfb : fetch ((app.coin_configs.getD iB CoinConfig.defaultConfig).symbol) = some P) :
    (app.update_prices fetch).prices.getD iA 0 = app.prices.getD iA 0
    ∧ (app.update_prices fetch).prices.getD iB 0 = P := by
  have hlen' : app.prices.length = app.coin_configs.length := hlen
  have hlenA : iA < app.prices.length := by omega
  have hlenB : iB < app.prices.length := by omega
  constructor
  · rw [update_prices_getD app fetch iA hA hlenA, hfa]
  · rw [update_prices_getD app fetch iB hB hlenB, hfb]

/-- C3, witness: in the cycle `exFetch` the BTCUSDT lookup (entry 0) fails
and the ETHUSDT lookup (entry 1) returns 42.5; entry 0 keeps its prior
value and entry 1 reads 42.5. -/
theorem failed_lookup_isolation_witness :
    (App.new 0).pricesAligned
    ∧ 0 < (App.new 0).coin_configs.length
    ∧ 1 < (App.new 0).coin_configs.length
    ∧ exFetch (((App.new 0).coin_configs.getD 0 CoinConfig.defaultConfig).symbol) = none
    ∧ exFetch (((App.new 0).coin_configs.getD 1 CoinConfig.defaultConfig).symbol)
        = some (85 / 2)
    ∧ ((App.new 0).update_prices exFetch).prices.getD 0 0 = (App.new 0).prices.getD 0 0
    ∧ ((App.new 0).update_prices exFetch).prices.getD 1 0 = 85 / 2 := by
  have h1 : (App.new 0).pricesAligned := by rfl
  have h2 : 0 < (App.new 0).coin_configs.length := by decide
  have h3 : 1 < (App.new 0).coin_configs.length := by decide
  have h4 : exFetch (((App.new 0).coin_configs.getD 0 CoinConfig.defaultConfig).symbol)
      = none := by decide
  have h5 : exFetch (((App.new 0).coin_configs.getD 1 CoinConfig.defaultConfig).symbol)
      = some (85 / 2) := by rfl
  exact ⟨h1, h2, h3, h4, h5,
    failed_lookup_isolation (App.new 0) exFetch 0 1 (85 / 2) h1 h2 h3 h4 h5⟩

/-- C4: under the simulated clock, the fetch step fires at most once per
elapsed 1-second window — the clock readings of successive fetches along
any run are at least `fetchIntervalMs` apart, starting from the initial
`last_update`; moreover a step fetches exactly when at least one second
has elapsed since `last_update`, and then sets `last_update` to the
current time. -/
theorem fetch_at_most_once_per_interval (app : App) (inputs : List LoopInput) :
    List.Chain (fun a b => a + fetchIntervalMs ≤ b) app.last_update
      (App.fetchTimes app inputs)
    ∧ ∀ inp : LoopInput, (app.step inp).last_update =
        if fetchIntervalMs ≤ inp.now - app.last_update then inp.now
        else app.last_update :=
  ⟨fetchTimes_chain inputs app, fun inp => step_last_update app inp⟩

/-- C5: immediately after `update(i, P)` the store reads back exactly `P`
(no rounding at the store layer); updating twice with the same `P` still
reads `P`, and repeated updates are last-write-wins. -/
theorem store_update_get_exact (app : App) (i : Nat) (P Q : ℚ)
    (h : i < app.prices.length) :
    (app.update i P).get i = P
    ∧ ((app.update i P).update i P).get i = P
    ∧ ((app.update i Q).update i P).get i = P := by
  have h1 : i < (app.update i P).prices.length := by
    show i < (app.prices.set i P).length
    rw [List.length_set]
    exact h
  have h2 : i < (app.update i Q).prices.length := by
    show i < (app.prices.set i Q).length
    rw [List.length_set]
    exact h
  exact ⟨getD_set_self _ _ _ h, getD_set_self _ _ _ h1, getD_set_self _ _ _ h2⟩

/-- C5, witness: instantiation at entry 2 with price 3.5 overwriting 1. -/
theorem store_update_get_exact_witness :
    2 < (App.new 0).prices.length
    ∧ ((App.new 0).update 2 (7 / 2)).get 2 = 7 / 2
    ∧ (((App.new 0).update 2 (7 / 2)).update 2 (7 / 2)).get 2 = 7 / 2
    ∧ (((App.new 0).update 2 1).update 2 (7 / 2)).get 2 = 7 / 2 := by
  have h : 2 < (App.new 0).prices.length := by decide
  exact ⟨h, store_update_get_exact (App.new 0) 2 (7 / 2) 1 h⟩

/-- C6: a configured entry whose symbol's lookup never succeeds over an
entire run still reads the configured default `0.0`, and the read is in
bounds (it never fails). -/
theorem never_fetched_reads_default (t0 : Nat) (inputs : List LoopInput) (i : Nat)
    (hi : i < (App.new t0).coin_configs.length)
    (hfail : ∀ inp ∈ inputs,
      inp.fetch (((App.new t0).coin_configs.getD i CoinConfig.defaultConfig).symbol)
        = none) :
    ((App.new t0).run inputs).get i = 0
    ∧ i < ((App.new t0).run inputs).prices.length := by
  have hfail' : ∀ inp ∈ inputs,
      inp.fetch ((({ App.new t0 with running := true } : App).coin_configs.getD i
        CoinConfig.defaultConfig).symbol) = none := hfail
  constructor
  · show (App.runFrom { App.new t0 with running := true } inputs).prices.getD i 0 = 0
    rw [runFrom_getD_of_fetch_none inputs _ i hfail']
    show (List.replicate defaultCoinConfigs.length (0 : ℚ)).getD i 0 = 0
    rw [List.getD_eq_getElem?_getD, List.getElem?_replicate]
    split <;> rfl
  · show i < (App.runFrom { App.new t0 with running := true } inputs).prices.length
    rw [runFrom_prices_length]
    show i < (List.replicate defaultCoinConfigs.length (0 : ℚ)).length
    rw [List.length_replicate]
    exact hi

/-- C6, witness: one loop iteration in which every lookup fails leaves entry
0 (BTCUSDT) reading the default 0. -/
theorem never_fetched_reads_default_witness :
    0 < (App.new 0).coin_configs.length
    ∧ (∀ inp ∈ [noFetchInput],
        inp.fetch (((App.new 0).coin_configs.getD 0 CoinConfig.defaultConfig).symbol)
          = none)
    ∧ ((App.new 0).run [noFetchInput]).get 0 = 0
    ∧ 0 < ((App.new 0).run [noFetchInput]).prices.length := by
  have h1 : 0 < (App.new 0).coin_configs.length := by decide
  have h2 : ∀ inp ∈ [noFetchInput],
      inp.fetch (((App.new 0).coin_configs.getD 0 CoinConfig.defaultConfig).symbol)
        = none := by
    intro inp hinp
    obtain rfl := List.mem_singleton.mp hinp
    rfl
  exact ⟨h1, h2, never_fetched_reads_default 0 [noFetchInput] 0 h1 h2⟩

/-- C7: only key-press events dispatch — a key event whose kind is not
`Press` (in particular a release of `q`), a mouse event, a resize event,
and any other event all leave the application state entirely unchanged. -/
theorem non_press_events_ignored (app : App) :
    (∀ key : KeyEvent, key.kind ≠ KeyEventKind.Press →
      app.handle_crossterm_events (Event.Key key) = app)
    ∧ app.handle_crossterm_events Event.Mouse = app
    ∧ (∀ w h : Nat, app.handle_crossterm_events (Event.Resize w h) = app)
    ∧ app.handle_crossterm_events Event.Other = app := by
  refine ⟨?_, rfl, fun w h => rfl, rfl⟩
  intro key hk
  show (if key.kind = KeyEventKind.Press then app.on_key_event key else app) = app
  rw [if_neg hk]

/-- C7, witness: injecting a release event for `q` into a running app leaves
the state unchanged, so the loop state remains Running. -/
theorem non_press_events_ignored_witness :
    qRelease.kind ≠ KeyEventKind.Press
    ∧ runningApp.handle_crossterm_events (Event.Key qRelease) = runningApp
    ∧ runningApp.running = true :=
  ⟨by decide, (non_press_events_ignored runningApp).1 qRelease (by decide), rfl⟩

/-- C8: each loop iteration performs, in order: render of the current state
to a fresh frame, then the fetch step over all configured symbols exactly
when at least one second has elapsed since `last_update`, then the input
poll bounded by 250 ms, then dispatch exactly when an event arrived within
that window — and the instrumented step computes the same state as the
loop step. -/
theorem loop_iteration_order (app : App) (inp : LoopInput) :
    (app.stepTrace inp).1 = app.step inp
    ∧ (app.stepTrace inp).2 =
        [Action.rendered ((app.render Frame.empty).2)]
          ++ (if fetchIntervalMs ≤ inp.now - app.last_update
              then [Action.fetched (app.coin_configs.map (fun c => c.symbol))]
              else [])
          ++ [Action.polled 250 inp.event]
          ++ (match inp.event with
              | some ev => [Action.dispatched ev]
              | none => []) :=
  ⟨rfl, rfl⟩

/-- C9: the render step is pure — it mutates no field of the state
(`running`, `prices`, `coin_configs`, `last_update` are all unchanged)
and its only output is the drawn frame. -/
theorem render_is_pure (app : App) (frame : Frame) :
    (app.render frame).1.running = app.running
    ∧ (app.render frame).1.prices = app.prices
    ∧ (app.render frame).1.coin_configs = app.coin_configs
    ∧ (app.render frame).1.last_update = app.last_update
    ∧ (app.render frame).1 = app :=
  ⟨rfl, rfl, rfl, rfl, rfl⟩

/-- C10: the prices vector always has the same length as the config vector —
established at construction, preserved by every loop step — so every index
`i < coin_configs.length` used by the render and fetch steps is in bounds
for `prices`, in particular in every state reachable by a run. -/
theorem prices_indexing_in_bounds :
    (∀ t0 : Nat, (App.new t0).pricesAligned)
    ∧ (∀ (app : App) (inp : LoopInput), app.pricesAligned → (app.step inp).pricesAligned)
    ∧ (∀ (app : App) (i : Nat),
        app.pricesAligned → i < app.coin_configs.length → i < app.prices.length)
    ∧ (∀ (t0 : Nat) (inputs : List LoopInput) (i : Nat),
        i < defaultCoinConfigs.length → i < ((App.new t0).run inputs).prices.length) := by
  refine ⟨?_, ?_, ?_, ?_⟩
  · intro t0
    show (List.replicate defaultCoinConfigs.length (0 : ℚ)).length = _
    rw [List.length_replicate]
    rfl
  · intro app inp h
    show (app.step inp).prices.length = (app.step inp).coin_configs.length
    rw [step_prices_length, step_coin_configs]
    exact h
  · intro app i h hlt
    have h' : app.prices.length = app.coin_configs.length := h
    omega
  · intro t0 inputs i hlt
    show i < (App.runFrom { App.new t0 with running := true } inputs).prices.length
    rw [runFrom_prices_length]
    show i < (List.replicate defaultCoinConfigs.length (0 : ℚ)).length
    rw [List.length_replicate]
    exact hlt

/-- C10, witness: index 3 is in bounds for the prices of the running app. -/
theorem prices_indexing_in_bounds_witness :
    runningApp.pricesAligned
    ∧ 3 < runningApp.coin_configs.length
    ∧ 3 < runningApp.prices.length := by
  have h1 : runningApp.pricesAligned := by rfl
  have h2 : 3 < runningApp.coin_configs.length := by decide
  exact ⟨h1, h2, prices_indexing_in_bounds.2.2.1 runningApp 3 h1 h2⟩

end HelloRatatui
